import Mathlib

/-! Verification of the mini-Redis core against its specification: the RESP codec
round-trip, the AOF write gating and replay loader, the keyspace with lazy and
periodic expiration, the command dispatcher with its statistics counter and
MULTI/EXEC/DISCARD state machine, the timer queue, and the byte buffer. The server
modules themselves are not among the provided sources (only their tests, tools and
the bootstrap are), so each component is modelled from the specification text, with
the unit tests' expectations as corroboration; every definition whose original is
missing says so in its doc comment. -/

set_option maxHeartbeats 1000000
set_option maxRecDepth 10000

/-- RESP value: tagged sum per spec section 3. -/
inductive RespValue where
  | simple (s : String)
  | err (s : String)
  | integer (i : Int)
  | bulk (b : Option String)
  | array (a : Option (List RespValue))
deriving Repr

def crlf : List Char := ['\r', '\n']

def digitChar (d : Nat) : Char := Char.ofNat (48 + d)

def natCharsAux : Nat → Nat → List Char → List Char
  | 0, _, acc => acc
  | fuel + 1, n, acc =>
    if n < 10 then digitChar n :: acc
    else natCharsAux fuel (n / 10) (digitChar (n % 10) :: acc)

def natChars (n : Nat) : List Char := natCharsAux (n + 1) n []

def intChars (i : Int) : List Char :=
  if i < 0 then '-' :: natChars i.natAbs else natChars i.toNat

mutual
def serialize : RespValue → List Char
  | .simple s => '+' :: s.data ++ crlf
  | .err s => '-' :: s.data ++ crlf
  | .integer i => ':' :: intChars i ++ crlf
  | .bulk none => '$' :: '-' :: '1' :: crlf
  | .bulk (some b) => '$' :: natChars b.data.length ++ crlf ++ b.data ++ crlf
  | .array none => '*' :: '-' :: '1' :: crlf
  | .array (some l) => '*' :: natChars l.length ++ crlf ++ serializeList l

def serializeList : List RespValue → List Char
  | [] => []
  | v :: vs => serialize v ++ serializeList vs
end

example : natChars 125 = ['1', '2', '5'] := rfl
example : serialize (.array (some [.integer (-3), .bulk (some "ab")])) =
    "*2\r\n:-3\r\n$2\r\nab\r\n".data := rfl

mutual
def wfResp : RespValue → Bool
  | .simple s => s.data.all (fun c => !(c == '\r') && !(c == '\n'))
  | .err s => s.data.all (fun c => !(c == '\r') && !(c == '\n'))
  | .integer _ => true
  | .bulk _ => true
  | .array none => true
  | .array (some l) => wfList l

def wfList : List RespValue → Bool
  | [] => true
  | v :: vs => wfResp v && wfList vs
end

example : wfResp (.array (some [.integer (-3), .bulk (some "a\r\nb")])) = true := rfl

inductive ParseErr where
  | incomplete
  | protocol
deriving Repr, DecidableEq

def parseLine : List Char → Except ParseErr (List Char × List Char)
  | [] => .error .incomplete
  | c :: rest =>
    if c = '\r' then
      match rest with
      | [] => .error .incomplete
      | c2 :: r => if c2 = '\n' then .ok ([], r) else .error .protocol
    else if c = '\n' then .error .protocol
    else
      match parseLine rest with
      | .ok (l, r) => .ok (c :: l, r)
      | .error e => .error e

def isDigitC (c : Char) : Bool := decide (48 ≤ c.toNat) && decide (c.toNat ≤ 57)

def readDigits : List Char → Nat → Nat × List Char
  | [], acc => (acc, [])
  | c :: cs, acc =>
    if isDigitC c then readDigits cs (acc * 10 + (c.toNat - 48)) else (acc, c :: cs)

def expectCrlf : List Char → Except ParseErr (List Char)
  | [] => .error .incomplete
  | [c] => if c = '\r' then .error .incomplete else .error .protocol
  | c :: c2 :: r =>
    if c = '\r' then (if c2 = '\n' then .ok r else .error .protocol)
    else .error .protocol

def parseNum : List Char → Except ParseErr (Nat × List Char)
  | [] => .error .incomplete
  | c :: cs =>
    if isDigitC c then
      match readDigits cs (c.toNat - 48) with
      | (n, r) =>
        match expectCrlf r with
        | .ok r' => .ok (n, r')
        | .error e => .error e
    else .error .protocol

def parseSignedNum : List Char → Except ParseErr (Int × List Char)
  | [] => .error .incomplete
  | c :: rest =>
    if c = '-' then
      match parseNum rest with
      | .ok (n, r) => .ok (-(n : Int), r)
      | .error e => .error e
    else
      match parseNum (c :: rest) with
      | .ok (n, r) => .ok ((n : Int), r)
      | .error e => .error e

def takeN : Nat → List Char → Option (List Char × List Char)
  | 0, r => some ([], r)
  | _ + 1, [] => none
  | n + 1, c :: cs =>
    match takeN n cs with
    | some (b, r) => some (c :: b, r)
    | none => none

/-- Fuel-bounded parse of `n` consecutive RESP values. -/
def parseMany : Nat → Nat → List Char → Except ParseErr (List RespValue × List Char)
  | _, 0, r => .ok ([], r)
  | 0, _ + 1, _ => .error .protocol
  | fuel + 1, n + 1, input =>
    let step : Except ParseErr (RespValue × List Char) :=
      match input with
      | [] => .error .incomplete
      | c :: rest =>
        if c = '+' then
          match parseLine rest with
          | .ok (l, r) => .ok (.simple ⟨l⟩, r)
          | .error e => .error e
        else if c = '-' then
          match parseLine rest with
          | .ok (l, r) => .ok (.err ⟨l⟩, r)
          | .error e => .error e
        else if c = ':' then
          match parseSignedNum rest with
          | .ok (i, r) => .ok (.integer i, r)
          | .error e => .error e
        else if c = '$' then
          match parseSignedNum rest with
          | .ok (len, r) =>
            if len = -1 then .ok (.bulk none, r)
            else if len < 0 then .error .protocol
            else
              match takeN len.toNat r with
              | none => .error .incomplete
              | some (b, r') =>
                match expectCrlf r' with
                | .ok r'' => .ok (.bulk (some ⟨b⟩), r'')
                | .error e => .error e
          | .error e => .error e
        else if c = '*' then
          match parseSignedNum rest with
          | .ok (count, r) =>
            if count = -1 then .ok (.array none, r)
            else if count < 0 then .error .protocol
            else
              match parseMany fuel count.toNat r with
              | .ok (l, r') => .ok (.array (some l), r')
              | .error e => .error e
          | .error e => .error e
        else .error .protocol
    match step with
    | .error e => .error e
    | .ok (v, r') =>
      match parseMany fuel n r' with
      | .ok (l, r'') => .ok (v :: l, r'')
      | .error e => .error e

/-- Top-level incremental parser: returns the parsed value and the unconsumed suffix. -/
def parse (input : List Char) : Except ParseErr (RespValue × List Char) :=
  match parseMany (input.length + 1) 1 input with
  | .ok ([v], r) => .ok (v, r)
  | .ok _ => .error .protocol
  | .error e => .error e

example : parse "*2\r\n:-3\r\n$4\r\na\r\nb\r\nxx".data =
    .ok (.array (some [.integer (-3), .bulk (some "a\r\nb")]), "xx".data) := rfl
example : parse "*-1\r\n".data = .ok (.array none, []) := rfl
example : parse "$-1\r\n".data = .ok (.bulk none, []) := rfl
example : parse "*1\r\n*1\r\n+OK\r\n".data =
    .ok (.array (some [.array (some [.simple "OK"])]), []) := rfl
example : parse "*1\r\n:5".data = .error .incomplete := rfl
example : parse "$-2\r\n".data = .error .protocol := rfl

def numDigitsF : Nat → Nat → Nat
  | 0, _ => 0
  | fuel + 1, n => if n < 10 then 1 else numDigitsF fuel (n / 10) + 1

def numDigits (n : Nat) : Nat := numDigitsF (n + 1) n

def dstep (a : Nat) (c : Char) : Nat := a * 10 + (c.toNat - 48)

theorem digitChar_toNat {d : Nat} (h : d < 10) : (digitChar d).toNat = 48 + d := by
  interval_cases d <;> decide

theorem isDigitC_digitChar {d : Nat} (h : d < 10) : isDigitC (digitChar d) = true := by
  interval_cases d <;> decide

theorem natCharsAux_foldl :
    ∀ fuel n acc a, n < 10 ^ fuel →
      List.foldl dstep a (natCharsAux fuel n acc) =
        List.foldl dstep (a * 10 ^ numDigitsF fuel n + n) acc := by
  intro fuel
  induction fuel with
  | zero =>
    intro n acc a h
    have : n = 0 := by omega
    subst this
    simp [natCharsAux, numDigitsF]
  | succ fuel ih =>
    intro n acc a h
    by_cases h10 : n < 10
    · simp only [natCharsAux, if_pos h10, numDigitsF, List.foldl_cons]
      have : dstep a (digitChar n) = a * 10 + n := by
        simp [dstep, digitChar_toNat h10]
      rw [this]
      norm_num
    · simp only [natCharsAux, if_neg h10, numDigitsF]
      have hdiv : n / 10 < 10 ^ fuel := by
        rw [Nat.div_lt_iff_lt_mul (by norm_num)]
        calc n < 10 ^ (fuel + 1) := h
        _ = 10 ^ fuel * 10 := by ring
      rw [ih (n / 10) _ a hdiv]
      simp only [List.foldl_cons]
      have hmod : (digitChar (n % 10)).toNat = 48 + n % 10 :=
        digitChar_toNat (Nat.mod_lt _ (by norm_num))
      have : dstep (a * 10 ^ numDigitsF fuel (n / 10) + n / 10) (digitChar (n % 10)) =
          a * 10 ^ (numDigitsF fuel (n / 10) + 1) + n := by
        simp only [dstep, hmod]
        have := Nat.div_add_mod n 10
        ring_nf
        omega
      rw [this]

theorem natCharsAux_digits :
    ∀ fuel n acc, (∀ c ∈ acc, isDigitC c = true) →
      ∀ c ∈ natCharsAux fuel n acc, isDigitC c = true := by
  intro fuel
  induction fuel with
  | zero => intro n acc hacc; simpa [natCharsAux] using hacc
  | succ fuel ih =>
    intro n acc hacc c hc
    by_cases h10 : n < 10
    · simp only [natCharsAux, if_pos h10] at hc
      rcases List.mem_cons.mp hc with rfl | hc
      · exact isDigitC_digitChar h10
      · exact hacc _ hc
    · simp only [natCharsAux, if_neg h10] at hc
      refine ih (n / 10) _ ?_ c hc
      intro c' hc'
      rcases List.mem_cons.mp hc' with rfl | hc'
      · exact isDigitC_digitChar (Nat.mod_lt _ (by norm_num))
      · exact hacc _ hc'

theorem natChars_digits (n : Nat) : ∀ c ∈ natChars n, isDigitC c = true :=
  natCharsAux_digits _ _ _ (by simp)

theorem natCharsAux_length_ge :
    ∀ fuel n acc, acc.length ≤ (natCharsAux fuel n acc).length := by
  intro fuel
  induction fuel with
  | zero => intro n acc; simp [natCharsAux]
  | succ fuel ih =>
    intro n acc
    by_cases h10 : n < 10
    · simp [natCharsAux, if_pos h10]
    · simp only [natCharsAux, if_neg h10]
      calc acc.length ≤ (digitChar (n % 10) :: acc).length := by simp
      _ ≤ _ := ih _ _

theorem natChars_length_pos (n : Nat) : 0 < (natChars n).length := by
  unfold natChars
  by_cases h10 : n < 10
  · simp [natCharsAux, if_pos h10]
  · simp only [natCharsAux, if_neg h10]
    calc 0 < (digitChar (n % 10) :: ([] : List Char)).length := by simp
    _ ≤ _ := natCharsAux_length_ge _ _ _

theorem foldl_dstep_natChars (n a : Nat) :
    List.foldl dstep a (natChars n) = a * 10 ^ numDigits n + n := by
  have h : n < 10 ^ (n + 1) :=
    lt_of_lt_of_le (Nat.lt_pow_self (by norm_num) n) (Nat.pow_le_pow_right (by norm_num) (by omega))
  simpa [numDigits] using natCharsAux_foldl (n + 1) n [] a h

def nonDigitHead : List Char → Prop
  | [] => True
  | c :: _ => isDigitC c = false

theorem readDigits_digits_append :
    ∀ ds : List Char, (∀ c ∈ ds, isDigitC c = true) →
      ∀ rest, nonDigitHead rest → ∀ a,
        readDigits (ds ++ rest) a = (List.foldl dstep a ds, rest) := by
  intro ds
  induction ds with
  | nil =>
    intro _ rest hrest a
    cases rest with
    | nil => simp [readDigits]
    | cons c cs =>
      simp only [nonDigitHead] at hrest
      simp [readDigits, hrest]
  | cons c cs ih =>
    intro hds rest hrest a
    have hc : isDigitC c = true := hds c (by simp)
    simp only [List.cons_append, readDigits, if_pos hc, List.foldl_cons]
    exact ih (fun c' hc' => hds c' (by simp [hc'])) rest hrest _

theorem natChars_cons (n : Nat) :
    ∃ c cs, natChars n = c :: cs := by
  cases h : natChars n with
  | nil => exact absurd (natChars_length_pos n) (by simp [h])
  | cons c cs => exact ⟨c, cs, rfl⟩

theorem parseNum_natChars (n : Nat) (rest : List Char) :
    parseNum (natChars n ++ '\r' :: '\n' :: rest) = .ok (n, rest) := by
  obtain ⟨c, cs, hn⟩ := natChars_cons n
  have hdig : ∀ x ∈ natChars n, isDigitC x = true := natChars_digits n
  have hc : isDigitC c = true := hdig c (by simp [hn])
  have hcs : ∀ x ∈ cs, isDigitC x = true := fun x hx => hdig x (by simp [hn, hx])
  rw [hn]
  simp only [List.cons_append, parseNum, if_pos hc]
  rw [readDigits_digits_append cs hcs ('\r' :: '\n' :: rest) (by simp [nonDigitHead, isDigitC]) _]
  have hfold : List.foldl dstep (c.toNat - 48) cs = n := by
    have := foldl_dstep_natChars n 0
    rw [hn] at this
    simpa [dstep] using this
  simp [hfold, expectCrlf]

theorem isDigitC_ne_dash {c : Char} (h : isDigitC c = true) : ¬(c = '-') := by
  intro rfl_eq
  subst rfl_eq
  simp [isDigitC] at h

theorem parseSignedNum_natChars (n : Nat) (rest : List Char) :
    parseSignedNum (natChars n ++ '\r' :: '\n' :: rest) = .ok ((n : Int), rest) := by
  obtain ⟨c, cs, hn⟩ := natChars_cons n
  have hc : isDigitC c = true := natChars_digits n c (by simp [hn])
  rw [hn]
  simp only [List.cons_append, parseSignedNum, if_neg (isDigitC_ne_dash hc)]
  rw [← List.cons_append, ← hn, parseNum_natChars]

theorem parseSignedNum_neg_natChars (n : Nat) (rest : List Char) :
    parseSignedNum ('-' :: (natChars n ++ '\r' :: '\n' :: rest)) = .ok (-(n : Int), rest) := by
  simp only [parseSignedNum, if_pos rfl]
  rw [parseNum_natChars]
  simp

theorem parseLine_roundtrip :
    ∀ s : List Char, (∀ c ∈ s, ¬(c = '\r') ∧ ¬(c = '\n')) →
      ∀ rest, parseLine (s ++ '\r' :: '\n' :: rest) = .ok (s, rest) := by
  intro s
  induction s with
  | nil => intro _ rest; simp [parseLine]
  | cons c cs ih =>
    intro hs rest
    have hc := hs c (by simp)
    simp only [List.cons_append, parseLine, if_neg hc.1, if_neg hc.2, List.append_eq]
    rw [ih (fun c' hc' => hs c' (by simp [hc'])) rest]

theorem takeN_append (b rest : List Char) :
    takeN b.length (b ++ rest) = some (b, rest) := by
  induction b with
  | nil => simp [takeN]
  | cons c cs ih => simp [takeN, ih]

theorem serialize_length_pos (v : RespValue) : 0 < (serialize v).length := by
  cases v with
  | simple s => simp [serialize]
  | err s => simp [serialize]
  | integer i => simp [serialize]
  | bulk b => cases b <;> simp [serialize]
  | array a => cases a <;> simp [serialize]

theorem wf_line_chars {s : List Char}
    (h : s.all (fun c => !(c == '\r') && !(c == '\n')) = true) :
    ∀ c ∈ s, ¬(c = '\r') ∧ ¬(c = '\n') := by
  intro c hc
  have := List.all_eq_true.mp h c hc
  simp only [Bool.and_eq_true, Bool.not_eq_true'] at this
  exact ⟨by simpa using this.1, by simpa using this.2⟩

theorem parseMany_roundtrip :
    ∀ fuel, ∀ l rest, wfList l = true → (serializeList l).length < fuel →
      parseMany fuel l.length (serializeList l ++ rest) = .ok (l, rest) := by
  intro fuel
  induction fuel with
  | zero => intro l rest _ h; exact absurd h (by omega)
  | succ fuel ih =>
    intro l rest hwf hlen
    cases l with
    | nil => simp [serializeList, parseMany]
    | cons v vs =>
      have hwf2 : wfResp v = true ∧ wfList vs = true := by
        simpa [wfList, Bool.and_eq_true] using hwf
      have hvpos : 0 < (serialize v).length := serialize_length_pos v
      have hlist : (serializeList (v :: vs)).length
          = (serialize v).length + (serializeList vs).length := by
        simp [serializeList]
      have hlenvs : (serializeList vs).length < fuel := by omega
      have hcont : parseMany fuel vs.length (serializeList vs ++ rest) = .ok (vs, rest) :=
        ih vs rest hwf2.2 hlenvs
      show parseMany (fuel + 1) (vs.length + 1) (serializeList (v :: vs) ++ rest) = _
      cases v with
      | simple s =>
        obtain ⟨sd⟩ := s
        have hs : ∀ c ∈ sd, ¬(c = '\r') ∧ ¬(c = '\n') := by
          apply wf_line_chars; simpa [wfResp] using hwf2.1
        simp only [serializeList, serialize, crlf, List.cons_append, List.append_assoc,
          List.nil_append, parseMany]
        rw [parseLine_roundtrip sd hs (serializeList vs ++ rest)]
        simp [hcont]
      | err s =>
        obtain ⟨sd⟩ := s
        have hs : ∀ c ∈ sd, ¬(c = '\r') ∧ ¬(c = '\n') := by
          apply wf_line_chars; simpa [wfResp] using hwf2.1
        simp only [serializeList, serialize, crlf, List.cons_append, List.append_assoc,
          List.nil_append, parseMany]
        rw [parseLine_roundtrip sd hs (serializeList vs ++ rest)]
        simp [hcont]
      | integer i =>
        by_cases hi : i < 0
        · simp only [serializeList, serialize, intChars, if_pos hi, crlf, List.cons_append,
            List.append_assoc, List.nil_append, parseMany]
          rw [parseSignedNum_neg_natChars i.natAbs (serializeList vs ++ rest)]
          rw [show -(i.natAbs : Int) = i by omega]
          simp [hcont]
        · simp only [serializeList, serialize, intChars, if_neg hi, crlf, List.cons_append,
            List.append_assoc, List.nil_append, parseMany]
          rw [parseSignedNum_natChars i.toNat (serializeList vs ++ rest)]
          rw [show (i.toNat : Int) = i by omega]
          simp [hcont]
      | bulk b =>
        cases b with
        | none =>
          have hrw : ('-' :: '1' :: '\r' :: '\n' :: (serializeList vs ++ rest))
              = '-' :: (natChars 1 ++ '\r' :: '\n' :: (serializeList vs ++ rest)) := rfl
          simp only [serializeList, serialize, crlf, List.cons_append, List.append_assoc,
            List.nil_append, parseMany]
          rw [hrw, parseSignedNum_neg_natChars 1 (serializeList vs ++ rest)]
          simp [hcont]
        | some bs =>
          obtain ⟨bd⟩ := bs
          simp only [serializeList, serialize, crlf, List.cons_append, List.append_assoc,
            List.nil_append, parseMany]
          rw [parseSignedNum_natChars bd.length (bd ++ '\r' :: '\n' :: (serializeList vs ++ rest))]
          have h1 : ¬((bd.length : Int) = -1) := by omega
          have h2 : ¬((bd.length : Int) < 0) := by omega
          simp only [h1, if_false, h2, Int.toNat_ofNat]
          rw [takeN_append bd ('\r' :: '\n' :: (serializeList vs ++ rest))]
          simp [expectCrlf, hcont]
      | array a =>
        cases a with
        | none =>
          have hrw : ('-' :: '1' :: '\r' :: '\n' :: (serializeList vs ++ rest))
              = '-' :: (natChars 1 ++ '\r' :: '\n' :: (serializeList vs ++ rest)) := rfl
          simp only [serializeList, serialize, crlf, List.cons_append, List.append_assoc,
            List.nil_append, parseMany]
          rw [hrw, parseSignedNum_neg_natChars 1 (serializeList vs ++ rest)]
          simp [hcont]
        | some l2 =>
          have hwl2 : wfList l2 = true := by simpa [wfResp] using hwf2.1
          have hnpos : 0 < (natChars l2.length).length := natChars_length_pos _
          have hserv : (serialize (.array (some l2))).length
              = 1 + ((natChars l2.length).length + (2 + (serializeList l2).length)) := by
            simp [serialize, crlf]
            omega
          have hl2 : (serializeList l2).length < fuel := by omega
          simp only [serializeList, serialize, crlf, List.cons_append, List.append_assoc,
            List.nil_append, parseMany]
          rw [parseSignedNum_natChars l2.length (serializeList l2 ++ (serializeList vs ++ rest))]
          have h1 : ¬((l2.length : Int) = -1) := by omega
          have h2 : ¬((l2.length : Int) < 0) := by omega
          simp only [h1, if_false, h2, Int.toNat_ofNat]
          rw [ih l2 (serializeList vs ++ rest) hwl2 hl2]
          simp [hcont]

/-- C1: for every RESP value of every shape (simple strings and errors being CR/LF-free
lines, as the data model requires of a `line`), parsing the byte sequence produced by
serializing it succeeds, consumes exactly that byte sequence (any appended suffix is
returned unconsumed), and yields a value equal to the original. -/
theorem resp_roundtrip (v : RespValue) (h : wfResp v = true) :
    parse (serialize v) = .ok (v, []) ∧
      ∀ rest, parse (serialize v ++ rest) = .ok (v, rest) := by
  have key : ∀ rest, parse (serialize v ++ rest) = .ok (v, rest) := by
    intro rest
    have hwl : wfList [v] = true := by simp [wfList, h]
    have hser : serializeList [v] = serialize v := by simp [serializeList]
    have hlen : (serializeList [v]).length < (serialize v ++ rest).length + 1 := by
      simp [hser]
      omega
    have hmain := parseMany_roundtrip ((serialize v ++ rest).length + 1) [v] rest hwl hlen
    rw [hser] at hmain
    simp only [List.length_cons, List.length_nil, zero_add] at hmain
    simp only [parse, hmain]
  exact ⟨by simpa using key [], key⟩

def demoResp : RespValue :=
  .array (some [.simple "OK", .err "ERR boom", .integer (-42), .bulk none,
    .bulk (some "a\r\nb"), .array none, .array (some []), .bulk (some ""),
    .array (some [.integer 0, .simple ""])])

theorem resp_roundtrip_witness :
    wfResp demoResp = true ∧ parse (serialize demoResp) = .ok (demoResp, []) :=
  ⟨rfl, (resp_roundtrip demoResp rfl).1⟩

def loadAux : Nat → List Char → Except Unit (List RespValue)
  | 0, _ => .ok []
  | fuel + 1, input =>
    match input with
    | [] => .ok []
    | c :: cs =>
      match parse (c :: cs) with
      | .ok (v, rest) =>
        match loadAux fuel rest with
        | .ok vs => .ok (v :: vs)
        | .error e => .error e
      | .error .incomplete => .ok []
      | .error .protocol => .error ()

/-- Modelled from the spec: `Aof::load_commands()` (aof module, not in the sources) opens
the file read-only, repeatedly feeds its contents through the RESP parser and yields the
sequence of parsed values; a trailing incomplete record is ignored, a protocol error
aborts replay fatally. The file contents are the `List Char` argument. -/
def load_commands (file : List Char) : Except Unit (List RespValue) :=
  loadAux (file.length + 1) file

/-- C9: loading an empty AOF file succeeds and returns an empty command sequence rather
than an error. -/
theorem load_commands_empty : load_commands [] = .ok [] := rfl

example :
    load_commands ("*3\r\n$3\r\nSET\r\n$4\r\nkey1\r\n$6\r\nvalue1\r\n*3\r\n$3\r\nSET\r\n$4\r\nkey2\r\n$6\r\nvalue2\r\n".data) =
      .ok [.array (some [.bulk (some "SET"), .bulk (some "key1"), .bulk (some "value1")]),
           .array (some [.bulk (some "SET"), .bulk (some "key2"), .bulk (some "value2")])] := rfl

def lookupKey {α : Type} : List (String × α) → String → Option α
  | [], _ => none
  | (k', v) :: t, k => if k' = k then some v else lookupKey t k

def eraseKey {α : Type} : List (String × α) → String → List (String × α)
  | [], _ => []
  | (k', v) :: t, k => if k' = k then eraseKey t k else (k', v) :: eraseKey t k

def insertKey {α : Type} (l : List (String × α)) (k : String) (v : α) : List (String × α) :=
  (k, v) :: eraseKey l k

theorem lookupKey_eraseKey {α : Type} (l : List (String × α)) (k k' : String) :
    lookupKey (eraseKey l k) k' = if k = k' then none else lookupKey l k' := by
  induction l with
  | nil => simp [eraseKey, lookupKey]
  | cons p t ih =>
    obtain ⟨pk, pv⟩ := p
    by_cases h1 : pk = k <;> by_cases h2 : k = k' <;>
      simp [eraseKey, lookupKey, h1, h2, ih] <;> simp_all [lookupKey]

theorem lookupKey_insertKey {α : Type} (l : List (String × α)) (k k' : String) (v : α) :
    lookupKey (insertKey l k v) k' = if k = k' then some v else lookupKey l k' := by
  simp only [insertKey, lookupKey, lookupKey_eraseKey]
  by_cases h : k = k' <;> simp [h]

/-- Modelled from the spec: server statistics counters (section 3). -/
structure Stats where
  totalCommands : Nat
  hits : Nat
  misses : Nat
deriving Repr, DecidableEq

/-- Modelled from the spec: the process-wide state a `KVServer` owns — the keyspace,
the parallel expiration map (absolute deadlines in ms), the statistics, and the AOF
file contents (the `aof` module's file, as the byte sequence appended so far). -/
structure ServerState where
  kv : List (String × String)
  expires : List (String × Nat)
  stats : Stats
  aof : List Char
deriving Repr, DecidableEq

def initState : ServerState := ⟨[], [], ⟨0, 0, 0⟩, []⟩

def upperChar (c : Char) : Char :=
  if 97 ≤ c.toNat ∧ c.toNat ≤ 122 then Char.ofNat (c.toNat - 32) else c

def upper (s : String) : String := ⟨s.data.map upperChar⟩

example : upper "set" = "SET" := rfl
example : upper "Info" = "INFO" := rfl

/-- Extracts the bulk-string payloads of a command array; `none` when the outer value
is not a non-nil array of bulk strings. -/
def bulkArgs : List RespValue → Option (List String)
  | [] => some []
  | .bulk (some s) :: t =>
    match bulkArgs t with
    | some r => some (s :: r)
    | none => none
  | _ => none

def asCommand : RespValue → Option (List String)
  | .array (some l) => bulkArgs l
  | _ => none

/-- Modelled from the spec: the dispatcher's name→descriptor table (section 4.5).
`(n, true)` is a minimum arity, `(n, false)` an exact arity. -/
def arityOf : String → Option (Nat × Bool)
  | "SET" => some (3, false)
  | "GET" => some (2, false)
  | "DEL" => some (2, true)
  | "EXISTS" => some (2, false)
  | "EXPIRE" => some (3, false)
  | "PEXPIRE" => some (3, false)
  | "PERSIST" => some (2, false)
  | "TTL" => some (2, false)
  | "PTTL" => some (2, false)
  | "KEYS" => some (2, false)
  | "INFO" => some (1, true)
  | "MULTI" => some (1, false)
  | "EXEC" => some (1, false)
  | "DISCARD" => some (1, false)
  | _ => none

def isMutating : String → Bool
  | "SET" | "DEL" | "EXPIRE" | "PEXPIRE" | "PERSIST" => true
  | _ => false

def serialize_error (m : String) : List Char := '-' :: m.data ++ crlf
def serialize_ok : List Char := '+' :: "OK".data ++ crlf
def serialize_simple (m : String) : List Char := '+' :: m.data ++ crlf
def serialize_integer (i : Int) : List Char := ':' :: intChars i ++ crlf
def serialize_bulk_string (s : String) : List Char :=
  '$' :: natChars s.data.length ++ crlf ++ s.data ++ crlf
def serialize_null_bulk_string : List Char := '$' :: '-' :: '1' :: crlf

/-- Modelled from the spec: dispatcher steps 1–3 (section 4.5): shape validation,
name lookup on the uppercased name, arity validation. Yields the uppercased name
and the full argument vector, or the error reply. -/
def validate (cmd : RespValue) : Except (List Char) (String × List String) :=
  match asCommand cmd with
  | none => .error (serialize_error "ERR Protocol error")
  | some [] => .error (serialize_error "ERR Protocol error")
  | some (name :: args) =>
    let uname := upper name
    match arityOf uname with
    | none => .error (serialize_error ("ERR unknown command '" ++ name ++ "'"))
    | some (n, isMin) =>
      if (if isMin then decide (n ≤ args.length + 1) else decide (args.length + 1 = n)) then
        .ok (uname, name :: args)
      else .error (serialize_error ("ERR wrong number of arguments for '" ++ name ++ "' command"))

def mkCmd (parts : List String) : RespValue :=
  .array (some (parts.map (fun s => .bulk (some s))))

example : validate (mkCmd ["set", "k", "v"]) = .ok ("SET", ["set", "k", "v"]) := rfl
example : validate (mkCmd ["GET"]) =
    .error (serialize_error "ERR wrong number of arguments for 'GET' command") := rfl
example : validate (mkCmd ["NOPE", "x"]) =
    .error (serialize_error "ERR unknown command 'NOPE'") := rfl
example : validate (.integer 3) = .error (serialize_error "ERR Protocol error") := rfl

/-- Modelled from the spec: keyspace `set` (section 4.3) — upsert, clearing any prior
expiration for the key. -/
def kset (st : ServerState) (k v : String) : ServerState :=
  {st with kv := insertKey st.kv k v, expires := eraseKey st.expires k}

/-- Modelled from the spec: keyspace `del` — removes from keyspace and expiration map. -/
def kdel (st : ServerState) (k : String) : ServerState :=
  {st with kv := eraseKey st.kv k, expires := eraseKey st.expires k}

/-- Modelled from the spec: lazy expiration (section 4.3) — every read path first checks
the expiration map; if the deadline has passed, the key is deleted atomically from the
keyspace and the expiration map before the read answers. -/
def lazyCheck (now : Nat) (k : String) (st : ServerState) : ServerState :=
  match lookupKey st.expires k with
  | some d => if d ≤ now then kdel st k else st
  | none => st

/-- Modelled from the spec: keyspace `expire_at` — installs/overwrites the expiration
iff the key exists. -/
def kexpire_at (st : ServerState) (k : String) (d : Nat) : ServerState :=
  if (lookupKey st.kv k).isSome then {st with expires := insertKey st.expires k d} else st

/-- Modelled from the spec: keyspace `persist` — drops any expiration record. -/
def kpersist (st : ServerState) (k : String) : ServerState :=
  {st with expires := eraseKey st.expires k}

/-- Modelled from the spec: one periodic sampling sweep (section 4.3) — each sampled key
whose deadline has passed is deleted from both maps. The random sample is a parameter. -/
def ksweep (now : Nat) (samples : List String) (st : ServerState) : ServerState :=
  samples.foldl
    (fun s k =>
      match lookupKey s.expires k with
      | some d => if d ≤ now then kdel s k else s
      | none => s) st

def delLoop : List String → ServerState → ServerState × Nat
  | [], st => (st, 0)
  | k :: ks, st =>
    if (lookupKey st.kv k).isSome then
      match delLoop ks (kdel st k) with
      | (st2, c2) => (st2, c2 + 1)
    else delLoop ks st

def parseArgInt (s : String) : Option Int :=
  match s.data with
  | [] => none
  | c :: t =>
    if c = '-' then
      if t.isEmpty then none
      else if t.all isDigitC then some (-((t.foldl dstep 0 : Nat) : Int)) else none
    else if (c :: t).all isDigitC then some (((c :: t).foldl dstep 0 : Nat) : Int) else none

example : parseArgInt "5" = some 5 := rfl
example : parseArgInt "-120" = some (-120) := rfl
example : parseArgInt "1a" = none := rfl
example : parseArgInt "" = none := rfl

def globAux : Nat → List Char → List Char → Bool
  | 0, _, _ => false
  | fuel + 1, p, s =>
    match p, s with
    | [], [] => true
    | [], _ :: _ => false
    | c :: p', s =>
      if c = '*' then
        globAux fuel p' s ||
          (match s with
           | [] => false
           | _ :: s' => globAux fuel (c :: p') s')
      else
        match s with
        | [] => false
        | c' :: s' => (c = '?' || c = c') && globAux fuel p' s'

def globMatch (p s : List Char) : Bool := globAux (p.length + s.length + 1) p s

example : globMatch "k*_?".data "key_1".data = true := rfl
example : globMatch "k*".data "abc".data = false := rfl

def infoText (st : ServerState) : String :=
  "# Stats\r\ntotal_commands_processed:" ++ (⟨natChars st.stats.totalCommands⟩ : String) ++
  "\r\nkeyspace_hits:" ++ (⟨natChars st.stats.hits⟩ : String) ++
  "\r\nkeyspace_misses:" ++ (⟨natChars st.stats.misses⟩ : String) ++
  "\r\n# Keyspace\r\ndb0:keys=" ++ (⟨natChars st.kv.length⟩ : String) ++ ",expires=0\r\n"

def bumpHits (st : ServerState) : ServerState := {st with stats.hits := st.stats.hits + 1}

def bumpMisses (st : ServerState) : ServerState := {st with stats.misses := st.stats.misses + 1}

def hGet (now : Nat) (k : String) (st : ServerState) : ServerState × List Char :=
  match lookupKey (lazyCheck now k st).kv k with
  | some v => (bumpHits (lazyCheck now k st), serialize_bulk_string v)
  | none => (bumpMisses (lazyCheck now k st), serialize_null_bulk_string)

def hDel (ks : List String) (st : ServerState) : ServerState × List Char :=
  match delLoop ks st with
  | (st1, c) => (st1, serialize_integer c)

def hExists (now : Nat) (k : String) (st : ServerState) : ServerState × List Char :=
  (lazyCheck now k st,
   serialize_integer (if (lookupKey (lazyCheck now k st).kv k).isSome then 1 else 0))

def hExpire (now : Nat) (k a : String) (scale : Nat) (st : ServerState) :
    ServerState × List Char :=
  match parseArgInt a with
  | none => (st, serialize_error "ERR value is not an integer or out of range")
  | some amount =>
    (kexpire_at st k (now + (amount * scale).toNat),
     serialize_integer (if (lookupKey st.kv k).isSome then 1 else 0))

def hPersist (k : String) (st : ServerState) : ServerState × List Char :=
  if (lookupKey st.expires k).isSome then (kpersist st k, serialize_integer 1)
  else (st, serialize_integer 0)

def ttlReply (inSeconds : Bool) (d now : Nat) : List Char :=
  if inSeconds then serialize_integer (((d - now) + 999) / 1000 : Nat)
  else serialize_integer ((d - now : Nat) : Int)

def hTtl (now : Nat) (k : String) (inSeconds : Bool) (st : ServerState) :
    ServerState × List Char :=
  match lookupKey (lazyCheck now k st).kv k with
  | none => (lazyCheck now k st, serialize_integer (-2))
  | some _ =>
    match lookupKey (lazyCheck now k st).expires k with
    | none => (lazyCheck now k st, serialize_integer (-1))
    | some d => (lazyCheck now k st, ttlReply inSeconds d now)

def hKeys (pat : String) (st : ServerState) : ServerState × List Char :=
  (st, serialize (.array (some (((st.kv.map Prod.fst).filter
    (fun k => globMatch pat.data k.data)).map (fun k => .bulk (some k))))))

def hInfo (st : ServerState) : ServerState × List Char :=
  (st, serialize_bulk_string (infoText st))

/-- Modelled from the spec: the command handlers (sections 4.3 and 4.5), dispatched on the
uppercased command name with the full argument vector. -/
def runHandler (now : Nat) (uname : String) (argv : List String) (st : ServerState) :
    ServerState × List Char :=
  match uname, argv with
  | "SET", [_, k, v] => (kset st k v, serialize_ok)
  | "GET", [_, k] => hGet now k st
  | "DEL", _ :: ks => hDel ks st
  | "EXISTS", [_, k] => hExists now k st
  | "EXPIRE", [_, k, a] => hExpire now k a 1000 st
  | "PEXPIRE", [_, k, a] => hExpire now k a 1 st
  | "PERSIST", [_, k] => hPersist k st
  | "TTL", [_, k] => hTtl now k true st
  | "PTTL", [_, k] => hTtl now k false st
  | "KEYS", [_, pat] => hKeys pat st
  | "INFO", _ => hInfo st
  | "MULTI", _ => (st, serialize_ok)
  | "EXEC", _ => (st, serialize_error "ERR EXEC without MULTI")
  | "DISCARD", _ => (st, serialize_error "ERR DISCARD without MULTI")
  | _, _ => (st, serialize_error "ERR server error")

/-- Modelled from the spec: `KVServer::execute_command(cmd, from_aof)` (kv_server module,
not in the sources) — validation, then AOF gating (append the RESP serialization when the
descriptor is mutating and the command is not from replay), then the handler. `now` is the
monotonic clock reading in ms. -/
def execute_command (now : Nat) (cmd : RespValue) (from_aof : Bool) (st : ServerState) :
    ServerState × List Char :=
  match validate cmd with
  | .error e => (st, e)
  | .ok (uname, argv) =>
    let st1 := if isMutating uname && !from_aof then {st with aof := st.aof ++ serialize cmd} else st
    runHandler now uname argv st1

example :
    (execute_command 0 (mkCmd ["SET", "name", "alice"]) false initState).2 = serialize_ok := rfl
example :
    (execute_command 5 (mkCmd ["GET", "name"]) false
      (execute_command 0 (mkCmd ["SET", "name", "alice"]) false initState).1).2 =
      serialize_bulk_string "alice" := rfl
example :
    (execute_command 0 (mkCmd ["SET", "k", "v"]) false initState).1.aof =
      serialize (mkCmd ["SET", "k", "v"]) := rfl

theorem lazyCheck_aof (now : Nat) (k : String) (st : ServerState) :
    (lazyCheck now k st).aof = st.aof := by
  unfold lazyCheck
  split
  · split <;> rfl
  · rfl

theorem lazyCheck_stats (now : Nat) (k : String) (st : ServerState) :
    (lazyCheck now k st).stats = st.stats := by
  unfold lazyCheck
  split
  · split <;> rfl
  · rfl

theorem delLoop_aof : ∀ (ks : List String) (st : ServerState),
    (delLoop ks st).1.aof = st.aof := by
  intro ks
  induction ks with
  | nil => intro st; rfl
  | cons k ks ih =>
    intro st
    unfold delLoop
    split
    · have h := ih (kdel st k)
      rcases hd : delLoop ks (kdel st k) with ⟨st2, c2⟩
      rw [hd] at h
      simpa [hd] using h
    · exact ih st

theorem delLoop_stats : ∀ (ks : List String) (st : ServerState),
    (delLoop ks st).1.stats = st.stats := by
  intro ks
  induction ks with
  | nil => intro st; rfl
  | cons k ks ih =>
    intro st
    unfold delLoop
    split
    · have h := ih (kdel st k)
      rcases hd : delLoop ks (kdel st k) with ⟨st2, c2⟩
      rw [hd] at h
      simpa [hd] using h
    · exact ih st

theorem hGet_aof (now : Nat) (k : String) (st : ServerState) :
    (hGet now k st).1.aof = st.aof := by
  unfold hGet
  split <;> simp [bumpHits, bumpMisses, lazyCheck_aof]

theorem hDel_aof (ks : List String) (st : ServerState) :
    (hDel ks st).1.aof = st.aof := by
  unfold hDel
  split
  next st1 c heq =>
    have h := delLoop_aof ks st
    rw [heq] at h
    exact h

theorem hExists_aof (now : Nat) (k : String) (st : ServerState) :
    (hExists now k st).1.aof = st.aof := lazyCheck_aof now k st

theorem hExpire_aof (now : Nat) (k a : String) (scale : Nat) (st : ServerState) :
    (hExpire now k a scale st).1.aof = st.aof := by
  unfold hExpire
  split
  · rfl
  · simp only [kexpire_at]
    split <;> rfl

theorem hPersist_aof (k : String) (st : ServerState) :
    (hPersist k st).1.aof = st.aof := by
  unfold hPersist
  split <;> rfl

theorem hTtl_aof (now : Nat) (k : String) (b : Bool) (st : ServerState) :
    (hTtl now k b st).1.aof = st.aof := by
  unfold hTtl
  split
  · exact lazyCheck_aof now k st
  · split <;> exact lazyCheck_aof now k st

theorem runHandler_aof (now : Nat) (u : String) (argv : List String) (st : ServerState) :
    (runHandler now u argv st).1.aof = st.aof := by
  unfold runHandler
  split <;>
    first
      | rfl
      | apply hGet_aof
      | apply hDel_aof
      | apply hExists_aof
      | apply hExpire_aof
      | apply hPersist_aof
      | apply hTtl_aof

theorem hGet_totalCommands (now : Nat) (k : String) (st : ServerState) :
    (hGet now k st).1.stats.totalCommands = st.stats.totalCommands := by
  unfold hGet
  split <;> simp [bumpHits, bumpMisses, lazyCheck_stats]

theorem hDel_totalCommands (ks : List String) (st : ServerState) :
    (hDel ks st).1.stats.totalCommands = st.stats.totalCommands := by
  unfold hDel
  split
  next st1 c heq =>
    have h := delLoop_stats ks st
    rw [heq] at h
    rw [h]

theorem hExists_totalCommands (now : Nat) (k : String) (st : ServerState) :
    (hExists now k st).1.stats.totalCommands = st.stats.totalCommands := by
  show (lazyCheck now k st).stats.totalCommands = _
  rw [lazyCheck_stats]

theorem hExpire_totalCommands (now : Nat) (k a : String) (scale : Nat) (st : ServerState) :
    (hExpire now k a scale st).1.stats.totalCommands = st.stats.totalCommands := by
  unfold hExpire
  split
  · rfl
  · simp only [kexpire_at]
    split <;> rfl

theorem hPersist_totalCommands (k : String) (st : ServerState) :
    (hPersist k st).1.stats.totalCommands = st.stats.totalCommands := by
  unfold hPersist
  split <;> rfl

theorem hTtl_totalCommands (now : Nat) (k : String) (b : Bool) (st : ServerState) :
    (hTtl now k b st).1.stats.totalCommands = st.stats.totalCommands := by
  unfold hTtl
  split
  · show (lazyCheck now k st).stats.totalCommands = _
    rw [lazyCheck_stats]
  · split <;>
      (show (lazyCheck now k st).stats.totalCommands = _
       rw [lazyCheck_stats])

theorem runHandler_totalCommands (now : Nat) (u : String) (argv : List String)
    (st : ServerState) :
    (runHandler now u argv st).1.stats.totalCommands = st.stats.totalCommands := by
  unfold runHandler
  split <;>
    first
      | rfl
      | apply hGet_totalCommands
      | apply hDel_totalCommands
      | apply hExists_totalCommands
      | apply hExpire_totalCommands
      | apply hPersist_totalCommands
      | apply hTtl_totalCommands

def isMutatingCmd (cmd : RespValue) : Bool :=
  match validate cmd with
  | .ok (uname, _) => isMutating uname
  | .error _ => false

/-- C2: executing any command with `from_aof = true` leaves the AOF contents unchanged;
executing with `from_aof = false` appends exactly the command's RESP serialization to the
end of the AOF when the command validates to a mutating name (SET, DEL, EXPIRE, PEXPIRE,
PERSIST), and leaves the AOF unchanged for every other command. -/
theorem aof_append_gating (now : Nat) (cmd : RespValue) (st : ServerState) :
    (execute_command now cmd true st).1.aof = st.aof ∧
    (execute_command now cmd false st).1.aof =
      (if isMutatingCmd cmd then st.aof ++ serialize cmd else st.aof) := by
  unfold execute_command isMutatingCmd
  cases hv : validate cmd with
  | error e => simp
  | ok p =>
    obtain ⟨uname, argv⟩ := p
    refine ⟨by simp [runHandler_aof], ?_⟩
    by_cases hm : isMutating uname <;> simp [hm, runHandler_aof]

/-- C5: `SET k v` stores `v` under `k` and removes `k`'s expiration record, so a TTL
issued immediately afterwards returns `-1`. -/
theorem set_clears_expiration (now now2 : Nat) (k v : String) (st : ServerState) :
    lookupKey (execute_command now (mkCmd ["SET", k, v]) false st).1.kv k = some v ∧
    lookupKey (execute_command now (mkCmd ["SET", k, v]) false st).1.expires k = none ∧
    (execute_command now2 (mkCmd ["TTL", k]) false
        (execute_command now (mkCmd ["SET", k, v]) false st).1).2 =
      serialize_integer (-1) := by
  have hexec : (execute_command now (mkCmd ["SET", k, v]) false st).1 =
      kset {st with aof := st.aof ++ serialize (mkCmd ["SET", k, v])} k v := rfl
  rw [hexec]
  set sX := kset {st with aof := st.aof ++ serialize (mkCmd ["SET", k, v])} k v with hsX
  have h1 : lookupKey sX.kv k = some v := by rw [hsX]; simp [kset, lookupKey_insertKey]
  have h2 : lookupKey sX.expires k = none := by rw [hsX]; simp [kset, lookupKey_eraseKey]
  refine ⟨h1, h2, ?_⟩
  rw [show execute_command now2 (mkCmd ["TTL", k]) false sX = hTtl now2 k true sX from rfl]
  simp only [hTtl, lazyCheck, h2, h1]

/-- C4: a GET of a key whose installed expiration deadline `t` has passed (`now ≥ t`)
returns the nil bulk string, and that read deletes the key from both the keyspace and the
expiration map, so a TTL issued afterwards returns `-2`. -/
theorem lazy_expiration_get (now now2 t : Nat) (k : String) (st : ServerState)
    (hexp : lookupKey st.expires k = some t) (htime : t ≤ now) :
    (execute_command now (mkCmd ["GET", k]) false st).2 = serialize_null_bulk_string ∧
    lookupKey (execute_command now (mkCmd ["GET", k]) false st).1.kv k = none ∧
    lookupKey (execute_command now (mkCmd ["GET", k]) false st).1.expires k = none ∧
    (execute_command now2 (mkCmd ["TTL", k]) false
        (execute_command now (mkCmd ["GET", k]) false st).1).2 = serialize_integer (-2) := by
  have hred : execute_command now (mkCmd ["GET", k]) false st = hGet now k st := rfl
  have hlazy : lazyCheck now k st = kdel st k := by simp [lazyCheck, hexp, htime]
  have hkv : lookupKey (kdel st k).kv k = none := by simp [kdel, lookupKey_eraseKey]
  have hex : lookupKey (kdel st k).expires k = none := by simp [kdel, lookupKey_eraseKey]
  have hg : hGet now k st = (bumpMisses (kdel st k), serialize_null_bulk_string) := by
    simp only [hGet, hlazy, hkv]
  rw [hred, hg]
  have hkv2 : lookupKey (bumpMisses (kdel st k)).kv k = none := hkv
  have hex2 : lookupKey (bumpMisses (kdel st k)).expires k = none := hex
  refine ⟨rfl, hkv2, hex2, ?_⟩
  rw [show execute_command now2 (mkCmd ["TTL", k]) false (bumpMisses (kdel st k)) =
      hTtl now2 k true (bumpMisses (kdel st k)) from rfl]
  simp only [hTtl, lazyCheck, hex2, hkv2]

def c4State : ServerState := ⟨[("k", "v")], [("k", 100)], ⟨0, 0, 0⟩, []⟩

theorem lazy_expiration_get_witness :
    lookupKey c4State.expires "k" = some 100 ∧ (100 : Nat) ≤ 150 ∧
    (execute_command 150 (mkCmd ["GET", "k"]) false c4State).2 = serialize_null_bulk_string ∧
    (execute_command 0 (mkCmd ["TTL", "k"]) false
        (execute_command 150 (mkCmd ["GET", "k"]) false c4State).1).2 = serialize_integer (-2) :=
  ⟨rfl, by norm_num,
   (lazy_expiration_get 150 0 100 "k" c4State rfl (by norm_num)).1,
   (lazy_expiration_get 150 0 100 "k" c4State rfl (by norm_num)).2.2.2⟩

def transLoop (now : Nat) : List RespValue → ServerState → ServerState × List (List Char)
  | [], st => (st, [])
  | c :: cs, st =>
    match execute_command now c false st with
    | (st1, r) =>
      match transLoop now cs st1 with
      | (st2, rs) => (st2, r :: rs)

/-- Modelled from the spec: `KVServer::execute_transaction` (section 4.6) — runs the
materialized queue in order, collecting each command's own reply into an outer RESP
array; runtime errors become that element's error reply and do not abort the loop. -/
def execute_transaction (now : Nat) (cmds : List RespValue) (st : ServerState) :
    ServerState × List Char :=
  match transLoop now cmds st with
  | (st', rs) => (st', '*' :: natChars cmds.length ++ crlf ++ rs.flatten)

/-- Specification fold: the keyspace effect of running the commands one after another. -/
def applyCmds (now : Nat) (cmds : List RespValue) (st : ServerState) : ServerState :=
  cmds.foldl (fun s c => (execute_command now c false s).1) st

/-- Specification fold: the i-th reply is the reply of the i-th command executed in the
state produced by its predecessors. -/
def repliesOf (now : Nat) : List RespValue → ServerState → List (List Char)
  | [], _ => []
  | c :: cs, st =>
    (execute_command now c false st).2 :: repliesOf now cs (execute_command now c false st).1

theorem transLoop_spec (now : Nat) :
    ∀ (cmds : List RespValue) (st : ServerState),
      transLoop now cmds st = (applyCmds now cmds st, repliesOf now cmds st) := by
  intro cmds
  induction cmds with
  | nil => intro st; rfl
  | cons c cs ih =>
    intro st
    simp only [transLoop, applyCmds, repliesOf, List.foldl_cons, ih]

/-- C3: EXEC runs the queued commands in queue order — the final state is the left fold of
executing each command in the state left by its predecessors, and the reply is an outer
array header for the queue length followed by exactly one element per queued command, each
element being that command's own reply (a failing command contributes its error reply, and
neither aborts the later commands nor rolls back the earlier effects); the empty queue
replies `*0\r\n`. -/
theorem exec_transaction_spec (now : Nat) (cmds : List RespValue) (st : ServerState) :
    execute_transaction now cmds st =
      (applyCmds now cmds st,
       '*' :: natChars cmds.length ++ crlf ++ (repliesOf now cmds st).flatten) ∧
    (repliesOf now cmds st).length = cmds.length ∧
    execute_transaction now [] st = (st, "*0\r\n".data) := by
  refine ⟨?_, ?_, rfl⟩
  · unfold execute_transaction
    rw [transLoop_spec]
  · induction cmds generalizing st with
    | nil => rfl
    | cons c cs ih => simp [repliesOf, ih]

/-- Modelled from the spec: per-connection transaction state (section 3). -/
structure Conn where
  inMulti : Bool
  queue : List RespValue
deriving Repr

def initConn : Conn := ⟨false, []⟩

def bumpCommands (st : ServerState) : ServerState :=
  {st with stats.totalCommands := st.stats.totalCommands + 1}

/-- Modelled from the spec: the dispatcher pipeline (section 4.5 steps 1–6) combined with
the MULTI/EXEC/DISCARD state machine (section 4.6): validate, count, queue or execute. -/
def dispatch (now : Nat) (from_aof : Bool) (cmd : RespValue) (conn : Conn) (st : ServerState) :
    Conn × ServerState × List Char :=
  match validate cmd with
  | .error e => (conn, st, e)
  | .ok (uname, argv) =>
    if conn.inMulti && !(uname == "MULTI" || uname == "EXEC" || uname == "DISCARD") then
      ({conn with queue := conn.queue ++ [cmd]}, bumpCommands st, serialize_simple "QUEUED")
    else if uname = "MULTI" then
      if conn.inMulti then (conn, bumpCommands st, serialize_error "ERR MULTI calls can not be nested")
      else (⟨true, []⟩, bumpCommands st, serialize_ok)
    else if uname = "EXEC" then
      if conn.inMulti then
        match execute_transaction now conn.queue (bumpCommands st) with
        | (st2, r) => (⟨false, []⟩, st2, r)
      else (conn, bumpCommands st, serialize_error "ERR EXEC without MULTI")
    else if uname = "DISCARD" then
      if conn.inMulti then (⟨false, []⟩, bumpCommands st, serialize_ok)
      else (conn, bumpCommands st, serialize_error "ERR DISCARD without MULTI")
    else
      match runHandler now uname argv
          (if isMutating uname && !from_aof then
            {(bumpCommands st) with aof := (bumpCommands st).aof ++ serialize cmd}
          else bumpCommands st) with
      | (st2, r) => (conn, st2, r)

def wellFormedCmd (cmd : RespValue) : Bool :=
  match validate cmd with
  | .ok _ => true
  | .error _ => false

theorem execute_command_totalCommands (now : Nat) (c : RespValue) (fa : Bool)
    (st : ServerState) :
    (execute_command now c fa st).1.stats.totalCommands = st.stats.totalCommands := by
  unfold execute_command
  cases hv : validate c with
  | error e => rfl
  | ok p =>
    obtain ⟨uname, argv⟩ := p
    rw [runHandler_totalCommands]
    split <;> rfl

theorem transLoop_totalCommands (now : Nat) :
    ∀ (cmds : List RespValue) (st : ServerState),
      (transLoop now cmds st).1.stats.totalCommands = st.stats.totalCommands := by
  intro cmds
  induction cmds with
  | nil => intro st; rfl
  | cons c cs ih =>
    intro st
    unfold transLoop
    rcases he : execute_command now c false st with ⟨st1, r⟩
    rcases ht : transLoop now cs st1 with ⟨st2, rs⟩
    have h1 := execute_command_totalCommands now c false st
    have h2 := ih st1
    rw [he] at h1
    rw [ht] at h2
    simp_all

theorem execute_transaction_totalCommands (now : Nat) (cmds : List RespValue)
    (st : ServerState) :
    (execute_transaction now cmds st).1.stats.totalCommands = st.stats.totalCommands := by
  unfold execute_transaction
  rcases ht : transLoop now cmds st with ⟨st2, rs⟩
  have h := transLoop_totalCommands now cmds st
  rw [ht] at h
  simpa using h

theorem dispatch_totalCommands (now : Nat) (fa : Bool) (cmd : RespValue) (conn : Conn)
    (st : ServerState) :
    (dispatch now fa cmd conn st).2.1.stats.totalCommands =
      st.stats.totalCommands + (if wellFormedCmd cmd then 1 else 0) := by
  unfold dispatch wellFormedCmd
  cases hv : validate cmd with
  | error e => simp
  | ok p =>
    obtain ⟨uname, argv⟩ := p
    simp only [if_pos rfl]
    split
    · rfl
    · split
      · split <;> rfl
      · split
        · split
          · rcases ht : execute_transaction now conn.queue (bumpCommands st) with ⟨st2, r⟩
            have h := execute_transaction_totalCommands now conn.queue (bumpCommands st)
            rw [ht] at h
            simpa [bumpCommands] using h
          · rfl
        · split
          · split <;> rfl
          · rcases hr : runHandler now uname argv
                (if isMutating uname && !fa then
                  {(bumpCommands st) with aof := (bumpCommands st).aof ++ serialize cmd}
                else bumpCommands st) with ⟨st2, r⟩
            have h := runHandler_totalCommands now uname argv
                (if isMutating uname && !fa then
                  {(bumpCommands st) with aof := (bumpCommands st).aof ++ serialize cmd}
                else bumpCommands st)
            rw [hr] at h
            simp only at h
            rw [h]
            by_cases hmu : (isMutating uname && !fa) = true <;> simp [hmu, bumpCommands]

/-- Folding the dispatcher over a sequence of incoming commands, threading the
per-connection transaction state and the server state. -/
def dispatchAll (now : Nat) (fa : Bool) (cmds : List RespValue) (conn : Conn)
    (st : ServerState) : Conn × ServerState :=
  cmds.foldl (fun p c =>
    match dispatch now fa c p.1 p.2 with
    | (conn', st', _) => (conn', st')) (conn, st)

/-- C8: after the dispatcher processes any sequence of commands, `total_commands_processed`
has grown by exactly the number of well-formed commands — those passing shape, name and
arity validation — each counted exactly once (commands queued inside MULTI and INFO
included, the commands replayed by EXEC not re-counted), while malformed, unknown and
wrong-arity commands count zero. -/
theorem total_commands_processed_spec (now : Nat) (fa : Bool) :
    ∀ (cmds : List RespValue) (conn : Conn) (st : ServerState),
      (dispatchAll now fa cmds conn st).2.stats.totalCommands =
        st.stats.totalCommands + cmds.countP (fun c => wellFormedCmd c) := by
  intro cmds
  induction cmds with
  | nil => intro conn st; simp [dispatchAll]
  | cons c cs ih =>
    intro conn st
    have hstep : dispatchAll now fa (c :: cs) conn st =
        dispatchAll now fa cs (dispatch now fa c conn st).1 (dispatch now fa c conn st).2.1 := by
      unfold dispatchAll
      simp only [List.foldl_cons]
    rw [hstep, ih, dispatch_totalCommands, List.countP_cons]
    by_cases hc : wellFormedCmd c <;> (simp [hc]; try omega)

/-- The keyspace operations of section 4.3, with the clock and the sweep's random
sample as explicit parameters. -/
inductive KOp where
  | opSet (k v : String)
  | opGet (now : Nat) (k : String)
  | opDel (k : String)
  | opExists (now : Nat) (k : String)
  | opExpireAt (k : String) (d : Nat)
  | opPersist (k : String)
  | opTtl (now : Nat) (k : String)
  | opSweep (now : Nat) (samples : List String)

/-- The keyspace effect of each operation (replies and counters dropped). -/
def applyOp (st : ServerState) : KOp → ServerState
  | .opSet k v => kset st k v
  | .opGet now k => (hGet now k st).1
  | .opDel k => kdel st k
  | .opExists now k => lazyCheck now k st
  | .opExpireAt k d => kexpire_at st k d
  | .opPersist k => kpersist st k
  | .opTtl now k => lazyCheck now k st
  | .opSweep now samples => ksweep now samples st

/-- Invariant: every key in the expiration map also exists in the keyspace. -/
def expiresSubset (st : ServerState) : Prop :=
  ∀ k d, lookupKey st.expires k = some d → (lookupKey st.kv k).isSome = true

theorem expiresSubset_kset {st : ServerState} (h : expiresSubset st) (k v : String) :
    expiresSubset (kset st k v) := by
  intro k' d hl
  simp only [kset, lookupKey_eraseKey] at hl
  rcases hk : decide (k = k') with _ | _
  · have hne : ¬(k = k') := of_decide_eq_false hk
    rw [if_neg hne] at hl
    simp only [kset, lookupKey_insertKey, if_neg hne]
    exact h k' d hl
  · have heq : k = k' := of_decide_eq_true hk
    rw [if_pos heq] at hl
    exact absurd hl (by simp)

theorem expiresSubset_kdel {st : ServerState} (h : expiresSubset st) (k : String) :
    expiresSubset (kdel st k) := by
  intro k' d hl
  simp only [kdel, lookupKey_eraseKey] at hl ⊢
  by_cases hk : k = k'
  · rw [if_pos hk] at hl; exact absurd hl (by simp)
  · rw [if_neg hk] at hl; rw [if_neg hk]; exact h k' d hl

theorem expiresSubset_lazyCheck {st : ServerState} (h : expiresSubset st) (now : Nat)
    (k : String) : expiresSubset (lazyCheck now k st) := by
  unfold lazyCheck
  split
  · split
    · exact expiresSubset_kdel h k
    · exact h
  · exact h

theorem expiresSubset_hGet {st : ServerState} (h : expiresSubset st) (now : Nat)
    (k : String) : expiresSubset ((hGet now k st).1) := by
  have hbase := expiresSubset_lazyCheck h now k
  unfold hGet
  split <;> exact hbase

theorem expiresSubset_kexpire_at {st : ServerState} (h : expiresSubset st) (k : String)
    (d : Nat) : expiresSubset (kexpire_at st k d) := by
  unfold kexpire_at
  split
  · intro k' d' hl
    simp only [lookupKey_insertKey] at hl
    by_cases hk : k = k'
    · subst hk; simp_all
    · rw [if_neg hk] at hl; exact h k' d' hl
  · exact h

theorem expiresSubset_kpersist {st : ServerState} (h : expiresSubset st) (k : String) :
    expiresSubset (kpersist st k) := by
  intro k' d hl
  simp only [kpersist, lookupKey_eraseKey] at hl
  by_cases hk : k = k'
  · rw [if_pos hk] at hl; exact absurd hl (by simp)
  · rw [if_neg hk] at hl; exact h k' d hl

theorem expiresSubset_ksweep {st : ServerState} (h : expiresSubset st) (now : Nat)
    (samples : List String) : expiresSubset (ksweep now samples st) := by
  induction samples generalizing st with
  | nil => exact h
  | cons s ss ih =>
    unfold ksweep
    simp only [List.foldl_cons]
    apply ih
    split
    · split
      · exact expiresSubset_kdel h s
      · exact h
    · exact h

theorem expiresSubset_applyOp {st : ServerState} (h : expiresSubset st) (op : KOp) :
    expiresSubset (applyOp st op) := by
  cases op with
  | opSet k v => exact expiresSubset_kset h k v
  | opGet now k => exact expiresSubset_hGet h now k
  | opDel k => exact expiresSubset_kdel h k
  | opExists now k => exact expiresSubset_lazyCheck h now k
  | opExpireAt k d => exact expiresSubset_kexpire_at h k d
  | opPersist k => exact expiresSubset_kpersist h k
  | opTtl now k => exact expiresSubset_lazyCheck h now k
  | opSweep now samples => exact expiresSubset_ksweep h now samples

/-- C6: in every state reachable from the initial empty state by any sequence of keyspace
operations (set, get, del, exists, expire_at, persist, lazy expiration on reads, and the
periodic sampling sweep with any sample), every key present in the expiration map is also
present in the keyspace. -/
theorem expires_subset_reachable (ops : List KOp) :
    expiresSubset (ops.foldl applyOp initState) := by
  have aux : ∀ (l : List KOp) (st : ServerState), expiresSubset st →
      expiresSubset (l.foldl applyOp st) := by
    intro l
    induction l with
    | nil => intro st h; exact h
    | cons op l ih =>
      intro st h
      simp only [List.foldl_cons]
      exact ih _ (expiresSubset_applyOp h op)
  exact aux ops initState (by intro k d hl; simp [initState, lookupKey] at hl)

/-- Modelled from the spec: a timer (section 3) — absolute deadline in ms, a callback
(type-erased; identified here by a numeric id), a repeating flag and an interval.
`seq` is the insertion number, used to break ties between equal deadlines. -/
structure Timer where
  expiration : Nat
  cb : Nat
  repeating : Bool
  interval : Nat
  seq : Nat
deriving Repr, DecidableEq

def timerLE (a b : Timer) : Prop :=
  a.expiration < b.expiration ∨ (a.expiration = b.expiration ∧ a.seq ≤ b.seq)

instance : DecidableRel timerLE := fun a b => by unfold timerLE; infer_instance

def insertTimer (t : Timer) : List Timer → List Timer
  | [] => [t]
  | u :: us => if timerLE t u then t :: u :: us else u :: insertTimer t us

/-- Modelled from the spec: the timer queue (section 4.7) — a min-heap keyed by absolute
deadline with ties broken by insertion order, modelled as the sorted list of timers. -/
structure TimerQueue where
  timers : List Timer
  nextSeq : Nat
deriving Repr

def emptyQueue : TimerQueue := ⟨[], 0⟩

/-- Modelled from the spec: `TimerQueue::add_timer(delay, cb, repeat, interval)` at
current time `now` — schedules at deadline `now + delay`. -/
def add_timer (q : TimerQueue) (now delay cb : Nat) (repeating : Bool) (interval : Nat) :
    TimerQueue :=
  ⟨insertTimer ⟨now + delay, cb, repeating, interval, q.nextSeq⟩ q.timers, q.nextSeq + 1⟩

/-- Modelled from the spec: `Timer::restart` — deadline += interval. -/
def restart (t : Timer) : Timer := {t with expiration := t.expiration + t.interval}

def isExpired (now : Nat) (t : Timer) : Bool := decide (t.expiration ≤ now)

/-- Modelled from the spec: `process_expired(now)` — pops every timer with
deadline ≤ now off the front of the min-ordered queue, invokes the callbacks in pop
order, and reinserts each popped repeating timer with its deadline advanced by its
interval. Returns the invoked callback ids in invocation order. -/
def process_expired (now : Nat) (q : TimerQueue) : List Nat × TimerQueue :=
  ((q.timers.takeWhile (isExpired now)).map Timer.cb,
   ⟨((q.timers.takeWhile (isExpired now)).filter Timer.repeating).foldl
       (fun acc t => insertTimer (restart t) acc) (q.timers.dropWhile (isExpired now)),
    q.nextSeq⟩)

theorem timerLE_expiration {a b : Timer} (h : timerLE a b) : a.expiration ≤ b.expiration := by
  rcases h with h | ⟨h, _⟩
  · omega
  · omega

theorem takeWhile_eq_filter_of_sorted (now : Nat) :
    ∀ l : List Timer, l.Pairwise timerLE →
      l.takeWhile (isExpired now) = l.filter (isExpired now) := by
  intro l
  induction l with
  | nil => intro _; rfl
  | cons t ts ih =>
    intro hp
    rcases List.pairwise_cons.mp hp with ⟨hall, hts⟩
    cases he : isExpired now t with
    | true => simp [List.takeWhile_cons, List.filter_cons, he, ih hts]
    | false =>
      have hnil : List.filter (isExpired now) ts = [] := by
        rw [List.filter_eq_nil_iff]
        intro u hu
        have h1 : t.expiration ≤ u.expiration := timerLE_expiration (hall u hu)
        simp only [isExpired, decide_eq_false_iff_not] at he
        simp only [isExpired, decide_eq_true_eq]
        omega
      simp [List.takeWhile_cons, List.filter_cons, he, hnil]

theorem dropWhile_eq_filter_of_sorted (now : Nat) :
    ∀ l : List Timer, l.Pairwise timerLE →
      l.dropWhile (isExpired now) = l.filter (fun t => !(isExpired now t)) := by
  intro l
  induction l with
  | nil => intro _; rfl
  | cons t ts ih =>
    intro hp
    rcases List.pairwise_cons.mp hp with ⟨hall, hts⟩
    cases he : isExpired now t with
    | true => simp [List.dropWhile_cons, List.filter_cons, he, ih hts]
    | false =>
      have hself : List.filter (fun u => !(isExpired now u)) ts = ts := by
        rw [List.filter_eq_self]
        intro u hu
        have h1 : t.expiration ≤ u.expiration := timerLE_expiration (hall u hu)
        simp only [isExpired, decide_eq_false_iff_not] at he
        simp only [isExpired, Bool.not_eq_true', decide_eq_false_iff_not]
        omega
      simp [List.dropWhile_cons, List.filter_cons, he, hself]

theorem insertTimer_perm (t : Timer) : ∀ l : List Timer, (insertTimer t l).Perm (t :: l) := by
  intro l
  induction l with
  | nil => exact List.Perm.refl _
  | cons u us ih =>
    unfold insertTimer
    split
    · exact List.Perm.refl _
    · exact List.Perm.trans (List.Perm.cons u ih) (List.Perm.swap t u us)

theorem foldl_insertTimer_perm :
    ∀ (ts acc : List Timer),
      (ts.foldl (fun acc t => insertTimer (restart t) acc) acc).Perm (acc ++ ts.map restart) := by
  intro ts
  induction ts with
  | nil => intro acc; simp
  | cons t ts ih =>
    intro acc
    simp only [List.foldl_cons, List.map_cons]
    refine List.Perm.trans (ih _) (List.Perm.trans
      (List.Perm.append_right (ts.map restart) (insertTimer_perm (restart t) acc)) ?_)
    simp only [List.cons_append]
    exact List.perm_middle.symm

/-- C7: on a queue ordered by (deadline, insertion order), `process_expired now` pops
exactly the timers whose deadline is at most `now` and invokes their callbacks in
nondecreasing deadline order with ties between equal deadlines broken by insertion order
(the popped sequence is ordered by `timerLE`), and the resulting queue holds exactly the
unexpired timers together with each popped repeating timer reinserted with its deadline
advanced by exactly its interval. -/
theorem process_expired_spec (now : Nat) (q : TimerQueue)
    (hs : q.timers.Pairwise timerLE) :
    (process_expired now q).1 = (q.timers.filter (isExpired now)).map Timer.cb ∧
    (q.timers.filter (isExpired now)).Pairwise timerLE ∧
    (process_expired now q).2.timers.Perm
      ((q.timers.filter (fun t => !(isExpired now t))) ++
        ((q.timers.filter (fun t => isExpired now t && t.repeating)).map restart)) := by
  have htake := takeWhile_eq_filter_of_sorted now q.timers hs
  have hdrop := dropWhile_eq_filter_of_sorted now q.timers hs
  refine ⟨?_, ?_, ?_⟩
  · simp only [process_expired, htake]
  · exact List.Pairwise.filter _ hs
  · simp only [process_expired, htake, hdrop]
    have hff : (q.timers.filter (isExpired now)).filter Timer.repeating =
        q.timers.filter (fun t => isExpired now t && t.repeating) := by
      rw [List.filter_filter]
      congr 1
      funext t
      exact Bool.and_comm _ _
    rw [hff]
    exact foldl_insertTimer_perm _ _

def demoQueue : TimerQueue :=
  add_timer (add_timer (add_timer emptyQueue 0 300 3 false 0) 0 100 1 false 0) 0 200 2 false 0

theorem process_expired_spec_witness :
    demoQueue.timers.Pairwise timerLE ∧
    (process_expired 400 demoQueue).1 = [1, 2, 3] :=
  ⟨by decide, Eq.trans (process_expired_spec 400 demoQueue (by decide)).1 (by decide)⟩

def kCheapPrepend : Nat := 8
def kInitialSize : Nat := 1024

/-- Modelled from the spec: the Buffer (section 4.1) — a byte region with a fixed
8-byte prepend area, reader/writer cursors and a capacity; `stored` is the readable
span `[r, w)`. -/
structure Buffer where
  reader : Nat
  writer : Nat
  cap : Nat
  stored : List Char
deriving Repr, DecidableEq

/-- A default-constructed Buffer: cursors at the prepend mark, capacity
`kCheapPrepend + kInitialSize`. -/
def defaultBuffer : Buffer := ⟨kCheapPrepend, kCheapPrepend, kCheapPrepend + kInitialSize, []⟩

def Buffer.readable_bytes (b : Buffer) : Nat := b.writer - b.reader
def Buffer.writable_bytes (b : Buffer) : Nat := b.cap - b.writer
def Buffer.prependable_bytes (b : Buffer) : Nat := b.reader

/-- Modelled from the spec: `Buffer::append` — write into the writable region; when it
is too small, shift the readable span left to reclaim prepend slack if the combined
slack suffices, otherwise grow the capacity to `w + len`. -/
def Buffer.append (b : Buffer) (s : List Char) : Buffer :=
  if s.length ≤ b.writable_bytes then
    {b with writer := b.writer + s.length, stored := b.stored ++ s}
  else if s.length ≤ b.writable_bytes + b.prependable_bytes - kCheapPrepend then
    {b with reader := kCheapPrepend,
            writer := kCheapPrepend + b.readable_bytes + s.length,
            stored := b.stored ++ s}
  else
    {b with cap := b.writer + s.length, writer := b.writer + s.length, stored := b.stored ++ s}

/-- Modelled from the spec: `Buffer::retrieve(n)` — advance the reader by
`min n readable`; when the buffer becomes empty both cursors snap back to the
prepend mark. -/
def Buffer.retrieve (b : Buffer) (n : Nat) : Buffer :=
  if n < b.readable_bytes then
    {b with reader := b.reader + n, stored := b.stored.drop n}
  else
    {b with reader := kCheapPrepend, writer := kCheapPrepend, stored := []}

def Buffer.retrieve_all (b : Buffer) : Buffer := b.retrieve b.readable_bytes

/-- C10 counterexample: appending 1025 bytes to a default Buffer grows its capacity
(1025 exceeds both the writable region and the reclaimable slack), and after retrieving
every readable byte the cursors do snap back, yet `writable_bytes` is 1025 — the grown
capacity minus the prepend region — and not `kInitialSize`. -/
theorem buffer_snapback_counterexample :
    ((defaultBuffer.append (List.replicate 1025 'x')).retrieve 1025).readable_bytes = 0 ∧
    ((defaultBuffer.append (List.replicate 1025 'x')).retrieve 1025).prependable_bytes
      = kCheapPrepend ∧
    ¬(((defaultBuffer.append (List.replicate 1025 'x')).retrieve 1025).writable_bytes
        = kInitialSize) := by
  decide

/-- C10 (amended): a default-constructed Buffer starts with `readable_bytes = 0`,
`writable_bytes = kInitialSize` and `prependable_bytes = kCheapPrepend`; whenever every
readable byte has been retrieved the cursors snap back so that `prependable_bytes` is
again `kCheapPrepend` and `writable_bytes` equals the capacity minus `kCheapPrepend`,
which equals `kInitialSize` whenever the capacity is still the initial one. -/
theorem buffer_snapback_spec :
    (defaultBuffer.readable_bytes = 0 ∧ defaultBuffer.writable_bytes = kInitialSize ∧
     defaultBuffer.prependable_bytes = kCheapPrepend) ∧
    ∀ (b : Buffer) (n : Nat), b.readable_bytes ≤ n →
      (b.retrieve n).readable_bytes = 0 ∧
      (b.retrieve n).prependable_bytes = kCheapPrepend ∧
      (b.retrieve n).writable_bytes = b.cap - kCheapPrepend ∧
      (b.cap = kCheapPrepend + kInitialSize → (b.retrieve n).writable_bytes = kInitialSize) := by
  refine ⟨⟨rfl, rfl, rfl⟩, ?_⟩
  intro b n h
  have hnot : ¬(n < b.readable_bytes) := by omega
  unfold Buffer.retrieve
  rw [if_neg hnot]
  refine ⟨rfl, rfl, rfl, ?_⟩
  intro hcap
  simp only [Buffer.writable_bytes, hcap, kCheapPrepend, kInitialSize]

theorem buffer_snapback_spec_witness :
    (defaultBuffer.append "hello".data).readable_bytes ≤ 5 ∧
    ((defaultBuffer.append "hello".data).retrieve 5).writable_bytes = kInitialSize :=
  ⟨by decide,
   (buffer_snapback_spec.2 (defaultBuffer.append "hello".data) 5 (by decide)).2.2.2 (by decide)⟩

theorem timerLE_total (a b : Timer) : timerLE a b ∨ timerLE b a := by
  unfold timerLE
  omega

theorem timerLE_trans {a b c : Timer} (h1 : timerLE a b) (h2 : timerLE b c) : timerLE a c := by
  unfold timerLE at *
  omega

theorem insertTimer_pairwise (t : Timer) :
    ∀ l : List Timer, l.Pairwise timerLE → (insertTimer t l).Pairwise timerLE := by
  intro l
  induction l with
  | nil => intro _; simp [insertTimer]
  | cons u us ih =>
    intro hp
    rcases List.pairwise_cons.mp hp with ⟨hall, hus⟩
    unfold insertTimer
    split
    next hle =>
      refine List.pairwise_cons.mpr ⟨?_, hp⟩
      intro v hv
      rcases List.mem_cons.mp hv with rfl | hv
      · exact hle
      · exact timerLE_trans hle (hall v hv)
    next hnle =>
      refine List.pairwise_cons.mpr ⟨?_, ih hus⟩
      intro v hv
      have hv2 := (insertTimer_perm t us).mem_iff.mp hv
      rcases List.mem_cons.mp hv2 with hveq | hv2
      · rw [hveq]
        rcases timerLE_total t u with h | h
        · exact absurd h hnle
        · exact h
      · exact hall v hv2

theorem add_timer_sorted (q : TimerQueue) (now delay cb : Nat) (repeating : Bool)
    (interval : Nat) (h : q.timers.Pairwise timerLE) :
    (add_timer q now delay cb repeating interval).timers.Pairwise timerLE :=
  insertTimer_pairwise _ q.timers h
